import Mathlib

/-!
Verification of `src/orso/compute/column_types.h`: the RLE and dictionary
encoded column types of the orso column store.

The C++ code is embedded shallowly:

* `std::vector<T>` payloads become `List T`.
* The `uint32_t` cells (`lengths_`, `indices_`, and the running counters
  that feed them) are `Nat` values reduced `% 2^32` exactly where the C++
  performs `uint32_t` arithmetic or narrows into a `vector<uint32_t>`.
  `size_t` accumulation (in `decoded_size`) is reduced `% 2^64`.
* `throw std::out_of_range` becomes the `Except.error` branch of
  `Except String`.
* Template parameter `T` with `operator==` becomes a type with
  `DecidableEq`.
-/

namespace orso

/-- Modulus of C++ `uint32_t` arithmetic: 2^32. -/
def U32MOD : Nat := 4294967296

/-- Modulus of C++ `size_t` arithmetic (64-bit platform): 2^64. -/
def U64MOD : Nat := 18446744073709551616

/-- State of an `RLEColumn<T>`: the fields `values_` and `lengths_`.
Entries of `lengths` model `uint32_t` cells (values below 2^32). -/
structure RLEColumn (T : Type) where
  values : List T
  lengths : List Nat

/-- The scan loop of `RLEColumn<T>::encode` (column_types.h lines 92-108):
`rest` is the unread tail `data[i..]`, `cv`/`cl` are `current_value` and
`current_length`, `vals`/`lens` are the vectors built so far.  The
increment `current_length++` is `uint32_t` arithmetic, hence `% U32MOD`. -/
def rleLoop {T : Type} [DecidableEq T] (rest : List T) (cv : T) (cl : Nat)
    (vals : List T) (lens : List Nat) : List T × List Nat :=
  match rest with
  | [] => (vals ++ [cv], lens ++ [cl])
  | x :: xs =>
    if x = cv then
      rleLoop xs cv ((cl + 1) % U32MOD) vals lens
    else
      rleLoop xs x 1 (vals ++ [cv]) (lens ++ [cl])

/-- `RLEColumn<T>::encode(data, size)` (column_types.h lines 83-109): on
`size == 0` it returns at once, leaving the column as it was (the early
return precedes the `clear()` calls); otherwise it clears both vectors and
scans, starting the first run from `data[0]` with length 1. -/
def RLEColumn.encode {T : Type} [DecidableEq T] (col : RLEColumn T)
    (data : List T) : RLEColumn T :=
  match data with
  | [] => col
  | d :: rest =>
    { values := (rleLoop rest d 1 [] []).1, lengths := (rleLoop rest d 1 [] []).2 }

/-- The nested loops of `RLEColumn<T>::decode` (column_types.h lines
111-123): for each position `i` of `values_` it appends `lengths_[i]`
copies of `values_[i]`.  The C++ indexes both vectors by `i < values_.size()`;
this recursion agrees with it whenever `lengths_` has at least
`values_.size()` entries, which `encode` always guarantees (it pushes to
both vectors in lockstep). -/
def rleDecodeGo {T : Type} : List T → List Nat → List T
  | [], _ => []
  | _ :: _, [] => []
  | v :: vs, l :: ls => List.replicate l v ++ rleDecodeGo vs ls

/-- `RLEColumn<T>::decode()` (column_types.h lines 111-123). -/
def RLEColumn.decode {T : Type} (col : RLEColumn T) : List T :=
  rleDecodeGo col.values col.lengths

/-- `RLEColumn<T>::decoded_size()` (column_types.h lines 125-132): a
`size_t` accumulator summed over `lengths_`, so each addition wraps
`% U64MOD`. -/
def RLEColumn.decoded_size {T : Type} (col : RLEColumn T) : Nat :=
  col.lengths.foldl (fun total len => (total + len) % U64MOD) 0

/-- State of a `DictionaryColumn<T>`: the fields `dictionary_` and
`indices_`.  Entries of `indices` model `uint32_t` cells. -/
structure DictionaryColumn (T : Type) where
  dictionary : List T
  indices : List Nat

/-- `std::find(begin, end, x)` followed by `std::distance(begin, it)`:
the position of the first element equal to `x`, or `none` when the search
reaches `end`. -/
def findPos {T : Type} [DecidableEq T] (x : T) : List T → Option Nat
  | [] => none
  | y :: ys => if y = x then some 0 else (findPos x ys).map (· + 1)

/-- The loop of `DictionaryColumn<T>::encode` (column_types.h lines
144-159): `uniq` is `unique_values`, `idxs` is `indices_`.  A new value is
pushed and `unique_values.size() - 1` is stored; an existing value stores
`std::distance(begin, it)`.  Both stores narrow a `size_t`/`ptrdiff_t`
into a `vector<uint32_t>`, hence `% U32MOD`. -/
def dictLoop {T : Type} [DecidableEq T] (data : List T) (uniq : List T)
    (idxs : List Nat) : List T × List Nat :=
  match data with
  | [] => (uniq, idxs)
  | x :: xs =>
    match findPos x uniq with
    | none => dictLoop xs (uniq ++ [x]) (idxs ++ [((uniq ++ [x]).length - 1) % U32MOD])
    | some i => dictLoop xs uniq (idxs ++ [i % U32MOD])

/-- `DictionaryColumn<T>::encode(data, size)` (column_types.h lines
134-162): on `size == 0` it returns at once, leaving the column as it was;
otherwise it clears both vectors, runs the loop, and moves
`unique_values` into `dictionary_`. -/
def DictionaryColumn.encode {T : Type} [DecidableEq T]
    (col : DictionaryColumn T) (data : List T) : DictionaryColumn T :=
  match data with
  | [] => col
  | x :: xs =>
    { dictionary := (dictLoop (x :: xs) [] []).1, indices := (dictLoop (x :: xs) [] []).2 }

/-- The loop of `DictionaryColumn<T>::decode` (column_types.h lines
164-177): each index is checked against `dictionary_.size()` before the
lookup; an out-of-bounds index throws
`std::out_of_range("Dictionary index out of range")`.  `dict[i]? = none`
is exactly `i >= dictionary_.size()`. -/
def dictDecodeGo {T : Type} (dict : List T) : List Nat → List T → Except String (List T)
  | [], acc => Except.ok acc
  | i :: rest, acc =>
    match dict[i]? with
    | none => Except.error "Dictionary index out of range"
    | some v => dictDecodeGo dict rest (acc ++ [v])

/-- `DictionaryColumn<T>::decode()` (column_types.h lines 164-177). -/
def DictionaryColumn.decode {T : Type} (col : DictionaryColumn T) :
    Except String (List T) :=
  dictDecodeGo col.dictionary col.indices []

/-- Written from the spec's words, for comparison with the code: "the
distinct values of S in the order they first appear in S". -/
def specFirstOccurrences {T : Type} [DecidableEq T] (S : List T) : List T :=
  S.foldl (fun acc x => if x ∈ acc then acc else acc ++ [x]) []

/-- Appending one run to both vectors appends its expansion to the decoding,
provided the vectors were in lockstep. -/
theorem rleDecodeGo_concat {T : Type} :
    ∀ (vals : List T) (lens : List Nat) (a : T) (n : Nat),
      vals.length = lens.length →
      rleDecodeGo (vals ++ [a]) (lens ++ [n]) =
        rleDecodeGo vals lens ++ List.replicate n a
  | [], [], a, n, _ => by simp [rleDecodeGo]
  | v :: vs, l :: ls, a, n, h => by
    have ih := rleDecodeGo_concat vs ls a n (by simpa using h)
    simp only [List.cons_append, rleDecodeGo, List.append_eq, ih, List.append_assoc]

/-- A sequence with no run of 2^32 equal values cannot have `cl + 1` reach
2^32 while `replicate (cl+1) cv ++ xs` is still one of its infixes: the
`uint32_t` increment `current_length++` therefore never wraps. -/
theorem noWrapStep {T : Type} {S : List T} {cv : T} {cl : Nat} {xs : List T}
    (hS : ∀ x, ¬ (List.replicate U32MOD x <:+: S))
    (hinf : (List.replicate (cl + 1) cv ++ xs) <:+: S) : cl + 1 < U32MOD := by
  by_contra hge
  push_neg at hge
  have e : U32MOD + (cl + 1 - U32MOD) = cl + 1 := by omega
  have h1 : List.replicate U32MOD cv <:+: List.replicate (cl + 1) cv ++ xs :=
    ⟨[], List.replicate (cl + 1 - U32MOD) cv ++ xs, by
      rw [List.nil_append, ← List.append_assoc, List.append_replicate_replicate, e]⟩
  exact hS cv (h1.trans hinf)

/-- Unfolding of one step of the scan loop. -/
theorem rleLoop_cons_eq {T : Type} [DecidableEq T] (x : T) (xs : List T)
    (cv : T) (cl : Nat) (vals : List T) (lens : List Nat) :
    rleLoop (x :: xs) cv cl vals lens =
      if x = cv then rleLoop xs cv ((cl + 1) % U32MOD) vals lens
      else rleLoop xs x 1 (vals ++ [cv]) (lens ++ [cl]) := rfl

/-- Decoding the result of the scan loop recovers the runs recorded so far,
the current run, and the unread tail, provided the input has no run of 2^32
or more equal values (so no `uint32_t` wrap occurs). -/
theorem rleLoop_decodeGo_eq {T : Type} [DecidableEq T] {S : List T}
    (hS : ∀ x, ¬ (List.replicate U32MOD x <:+: S)) :
    ∀ (rest : List T) (cv : T) (cl : Nat) (vals : List T) (lens : List Nat),
      vals.length = lens.length →
      (List.replicate cl cv ++ rest) <:+: S →
      rleDecodeGo (rleLoop rest cv cl vals lens).1 (rleLoop rest cv cl vals lens).2 =
        rleDecodeGo vals lens ++ (List.replicate cl cv ++ rest)
  | [], cv, cl, vals, lens, hlen, _ => by
    simp [rleLoop, rleDecodeGo_concat vals lens cv cl hlen]
  | x :: xs, cv, cl, vals, lens, hlen, hinf => by
    by_cases hx : x = cv
    · subst hx
      have e : List.replicate (cl + 1) x ++ xs = List.replicate cl x ++ (x :: xs) := by
        rw [List.replicate_succ', List.append_assoc, List.singleton_append]
      have hw : cl + 1 < U32MOD := noWrapStep hS (e ▸ hinf)
      rw [rleLoop_cons_eq, if_pos rfl, Nat.mod_eq_of_lt hw,
        rleLoop_decodeGo_eq hS xs x (cl + 1) vals lens hlen (e ▸ hinf), e]
    · have hsuf : (x :: xs) <:+: List.replicate cl cv ++ (x :: xs) :=
        ⟨List.replicate cl cv, [], by simp⟩
      rw [rleLoop_cons_eq, if_neg hx,
        rleLoop_decodeGo_eq hS xs x 1 (vals ++ [cv]) (lens ++ [cl]) (by simp [hlen])
          (by simpa using hsuf.trans hinf),
        rleDecodeGo_concat vals lens cv cl hlen]
      simp

/-- The scan loop on a constant block `replicate m c` extends the current run
by `m`, with the counter wrapping at 2^32 exactly as `uint32_t` does. -/
theorem rleLoop_replicate {T : Type} [DecidableEq T] (c : T) :
    ∀ (m : Nat) (cl : Nat), cl < U32MOD → ∀ (vals : List T) (lens : List Nat),
      rleLoop (List.replicate m c) c cl vals lens =
        (vals ++ [c], lens ++ [(cl + m) % U32MOD])
  | 0, cl, hcl, vals, lens => by
    simp [rleLoop, Nat.mod_eq_of_lt hcl]
  | m + 1, cl, hcl, vals, lens => by
    have hm : (0 : Nat) < U32MOD := by norm_num [U32MOD]
    have e : cl + 1 + m = cl + (m + 1) := by omega
    rw [List.replicate_succ, rleLoop_cons_eq, if_pos rfl,
      rleLoop_replicate c m ((cl + 1) % U32MOD) (Nat.mod_lt _ hm) vals lens,
      Nat.mod_add_mod, e]

/-- Encoding 2^32 equal values wraps the `uint32_t` run counter to 0: the
single run is recorded with length 0. -/
theorem rle_encode_wrap_eq :
    RLEColumn.encode (⟨[], []⟩ : RLEColumn Nat) (List.replicate U32MOD 0) =
      ⟨[0], [0]⟩ := by
  have e1 : List.replicate U32MOD (0 : Nat) = 0 :: List.replicate (U32MOD - 1) 0 := by
    rw [← List.replicate_succ]
    norm_num [U32MOD]
  have hcl : (1 : Nat) < U32MOD := by norm_num [U32MOD]
  have e2 := rleLoop_replicate (0 : Nat) (U32MOD - 1) 1 hcl [] []
  have e3 : (1 + (U32MOD - 1)) % U32MOD = 0 := by
    have : 1 + (U32MOD - 1) = U32MOD := by norm_num [U32MOD]
    rw [this, Nat.mod_self]
  rw [e1]
  show (⟨(rleLoop (List.replicate (U32MOD - 1) 0) 0 1 [] []).1,
         (rleLoop (List.replicate (U32MOD - 1) 0) 0 1 [] []).2⟩ : RLEColumn Nat) = _
  rw [e2, e3]
  simp

/-- C1 (amended): RLE round-trip holds for every sequence with no run of
2^32 or more equal values: decoding the column produced by
`RLEColumn::encode(S)` yields exactly S, including S = empty. -/
theorem rle_roundtrip {T : Type} [DecidableEq T] (S : List T)
    (hS : ∀ x, ¬ (List.replicate U32MOD x <:+: S)) :
    (RLEColumn.encode ⟨[], []⟩ S).decode = S := by
  cases S with
  | nil => rfl
  | cons d rest =>
    show rleDecodeGo (rleLoop rest d 1 [] []).1 (rleLoop rest d 1 [] []).2 = d :: rest
    rw [rleLoop_decodeGo_eq hS rest d 1 [] [] rfl (by simp)]
    simp [rleDecodeGo]

/-- C1 witness: the round-trip theorem applied to the concrete input
`[1, 1, 2]`, whose runs are all far below 2^32. -/
theorem rle_roundtrip_applied :
    (∀ x : Nat, ¬ (List.replicate U32MOD x <:+: [1, 1, 2])) ∧
      (RLEColumn.encode (⟨[], []⟩ : RLEColumn Nat) [1, 1, 2]).decode = [1, 1, 2] := by
  have h : ∀ x : Nat, ¬ (List.replicate U32MOD x <:+: [1, 1, 2]) := by
    intro x hx
    have h2 := hx.length_le
    rw [List.length_replicate] at h2
    norm_num [U32MOD] at h2
  exact ⟨h, rle_roundtrip [1, 1, 2] h⟩

/-- C1 counterexample: for S = 2^32 copies of 0, the `uint32_t` run counter
wraps to 0, so the decoded sequence is empty rather than S: the claimed
round-trip fails on this input. -/
theorem rle_roundtrip_fails_at_wrap :
    (RLEColumn.encode (⟨[], []⟩ : RLEColumn Nat) (List.replicate U32MOD 0)).decode ≠
      List.replicate U32MOD 0 := by
  rw [rle_encode_wrap_eq]
  intro h
  have h2 := congrArg List.length h
  rw [List.length_replicate] at h2
  norm_num [RLEColumn.decode, rleDecodeGo, U32MOD] at h2

/-- The scan loop keeps `values_` free of equal adjacent entries: the
recorded values so far form a chain of disequalities and the last of them
differs from the current run's value. -/
theorem rleLoop_chain {T : Type} [DecidableEq T] :
    ∀ (rest : List T) (cv : T) (cl : Nat) (vals : List T) (lens : List Nat),
      List.Chain' (· ≠ ·) vals → (∀ v ∈ vals.getLast?, v ≠ cv) →
      List.Chain' (· ≠ ·) (rleLoop rest cv cl vals lens).1
  | [], cv, cl, vals, lens, h1, h2 => by
    simp only [rleLoop]
    refine List.chain'_append.mpr ⟨h1, List.chain'_singleton cv, ?_⟩
    intro a ha b hb
    simp at hb
    subst hb
    exact h2 a ha
  | x :: xs, cv, cl, vals, lens, h1, h2 => by
    by_cases hx : x = cv
    · subst hx
      rw [rleLoop_cons_eq, if_pos rfl]
      exact rleLoop_chain xs x _ vals lens h1 h2
    · rw [rleLoop_cons_eq, if_neg hx]
      refine rleLoop_chain xs x 1 (vals ++ [cv]) (lens ++ [cl]) ?_ ?_
      · refine List.chain'_append.mpr ⟨h1, List.chain'_singleton cv, ?_⟩
        intro a ha b hb
        simp at hb
        subst hb
        exact h2 a ha
      · intro v hv
        rw [List.getLast?_concat] at hv
        simp at hv
        subst hv
        exact fun hc => hx hc.symm

/-- C6: RLE maximality — for non-empty S, no two adjacent entries of the
`values` sequence of `RLEColumn::encode(S)` are equal. -/
theorem rle_values_adjacent_distinct {T : Type} [DecidableEq T] (S : List T)
    (hS : S ≠ []) : List.Chain' (· ≠ ·) (RLEColumn.encode ⟨[], []⟩ S).values := by
  cases S with
  | nil => exact absurd rfl hS
  | cons d rest =>
    show List.Chain' (· ≠ ·) (rleLoop rest d 1 [] []).1
    exact rleLoop_chain rest d 1 [] [] List.chain'_nil (by simp)

/-- C6 witness: maximality applied to the concrete input `[1, 1, 2]`. -/
theorem rle_values_adjacent_distinct_applied :
    (([1, 1, 2] : List Nat) ≠ []) ∧
      List.Chain' (· ≠ ·) (RLEColumn.encode (⟨[], []⟩ : RLEColumn Nat) [1, 1, 2]).values :=
  ⟨by decide, rle_values_adjacent_distinct [1, 1, 2] (by decide)⟩

/-- The scan loop only stores positive run lengths as long as the
`uint32_t` counter never wraps, i.e. as long as no run reaches 2^32. -/
theorem rleLoop_lengths_pos {T : Type} [DecidableEq T] {S : List T}
    (hS : ∀ x, ¬ (List.replicate U32MOD x <:+: S)) :
    ∀ (rest : List T) (cv : T) (cl : Nat) (vals : List T) (lens : List Nat),
      1 ≤ cl → (∀ l ∈ lens, 1 ≤ l) →
      (List.replicate cl cv ++ rest) <:+: S →
      ∀ l ∈ (rleLoop rest cv cl vals lens).2, 1 ≤ l
  | [], cv, cl, vals, lens, hcl, hlens, _ => by
    simp only [rleLoop]
    intro l hl
    rcases List.mem_append.mp hl with h | h
    · exact hlens l h
    · simp at h
      exact h ▸ hcl
  | x :: xs, cv, cl, vals, lens, hcl, hlens, hinf => by
    by_cases hx : x = cv
    · subst hx
      have e : List.replicate (cl + 1) x ++ xs = List.replicate cl x ++ (x :: xs) := by
        rw [List.replicate_succ', List.append_assoc, List.singleton_append]
      have hw : cl + 1 < U32MOD := noWrapStep hS (e ▸ hinf)
      rw [rleLoop_cons_eq, if_pos rfl, Nat.mod_eq_of_lt hw]
      exact rleLoop_lengths_pos hS xs x (cl + 1) vals lens (by omega) hlens (e ▸ hinf)
    · have hsuf : (x :: xs) <:+: List.replicate cl cv ++ (x :: xs) :=
        ⟨List.replicate cl cv, [], by simp⟩
      rw [rleLoop_cons_eq, if_neg hx]
      refine rleLoop_lengths_pos hS xs x 1 (vals ++ [cv]) (lens ++ [cl]) le_rfl ?_
        (by simpa using hsuf.trans hinf)
      intro l hl
      rcases List.mem_append.mp hl with h | h
      · exact hlens l h
      · simp at h
        exact h ▸ hcl

/-- C9 (amended): for every sequence with no run of 2^32 or more equal
values, every entry of `lengths` after `RLEColumn::encode(S)` is at least
1. -/
theorem rle_lengths_pos {T : Type} [DecidableEq T] (S : List T)
    (hS : ∀ x, ¬ (List.replicate U32MOD x <:+: S)) :
    ∀ l ∈ (RLEColumn.encode ⟨[], []⟩ S).lengths, 1 ≤ l := by
  cases S with
  | nil =>
    intro l hl
    exact absurd hl (List.not_mem_nil l)
  | cons d rest =>
    show ∀ l ∈ (rleLoop rest d 1 [] []).2, 1 ≤ l
    exact rleLoop_lengths_pos hS rest d 1 [] [] le_rfl (by simp) (by simp)

/-- C9 witness: positivity applied to the concrete input `[3, 3, 4]`,
whose encoding has lengths `[2, 1]`. -/
theorem rle_lengths_pos_applied :
    2 ∈ (RLEColumn.encode (⟨[], []⟩ : RLEColumn Nat) [3, 3, 4]).lengths ∧ (1 : Nat) ≤ 2 := by
  have h : ∀ x : Nat, ¬ (List.replicate U32MOD x <:+: [3, 3, 4]) := by
    intro x hx
    have h2 := hx.length_le
    rw [List.length_replicate] at h2
    norm_num [U32MOD] at h2
  exact ⟨by decide, rle_lengths_pos [3, 3, 4] h 2 (by decide)⟩

/-- C9 counterexample: for S = 2^32 copies of 0, the single stored run
length is the wrapped counter 0, which is not at least 1. -/
theorem rle_lengths_pos_fails_at_wrap :
    ¬ (∀ l ∈ (RLEColumn.encode (⟨[], []⟩ : RLEColumn Nat) (List.replicate U32MOD 0)).lengths,
        1 ≤ l) := by
  rw [rle_encode_wrap_eq]
  intro h
  exact absurd (h 0 (by decide)) (by decide)

/-- Without a counter wrap, the run lengths stored by the scan loop sum to
the lengths already stored plus everything the current run and the unread
tail account for. -/
theorem rleLoop_sum {T : Type} [DecidableEq T] {S : List T}
    (hS : ∀ x, ¬ (List.replicate U32MOD x <:+: S)) :
    ∀ (rest : List T) (cv : T) (cl : Nat) (vals : List T) (lens : List Nat),
      (List.replicate cl cv ++ rest) <:+: S →
      ((rleLoop rest cv cl vals lens).2).sum = lens.sum + cl + rest.length
  | [], cv, cl, vals, lens, _ => by
    simp [rleLoop]
  | x :: xs, cv, cl, vals, lens, hinf => by
    by_cases hx : x = cv
    · subst hx
      have e : List.replicate (cl + 1) x ++ xs = List.replicate cl x ++ (x :: xs) := by
        rw [List.replicate_succ', List.append_assoc, List.singleton_append]
      have hw : cl + 1 < U32MOD := noWrapStep hS (e ▸ hinf)
      rw [rleLoop_cons_eq, if_pos rfl, Nat.mod_eq_of_lt hw,
        rleLoop_sum hS xs x (cl + 1) vals lens (e ▸ hinf)]
      simp
      omega
    · have hsuf : (x :: xs) <:+: List.replicate cl cv ++ (x :: xs) :=
        ⟨List.replicate cl cv, [], by simp⟩
      rw [rleLoop_cons_eq, if_neg hx,
        rleLoop_sum hS xs x 1 (vals ++ [cv]) (lens ++ [cl]) (by simpa using hsuf.trans hinf)]
      simp
      omega

/-- The `size_t` accumulation of `decoded_size` agrees with the exact sum
whenever that sum stays below 2^64. -/
theorem foldlMod_eq_sum :
    ∀ (L : List Nat) (t : Nat), t + L.sum < U64MOD →
      L.foldl (fun total len => (total + len) % U64MOD) t = t + L.sum
  | [], t, _ => by simp
  | l :: ls, t, h => by
    have hs : t + (l :: ls).sum = t + l + ls.sum := by simp; omega
    have h1 : t + l < U64MOD := by omega
    rw [List.foldl_cons, Nat.mod_eq_of_lt h1,
      foldlMod_eq_sum ls (t + l) (by omega), hs]

/-- C7 (amended): for every sequence with no run of 2^32 or more equal
values and with fewer than 2^64 elements (any sequence passable through the
`size_t` interface), `decoded_size()` after `RLEColumn::encode(S)` equals
`length(S)`. -/
theorem rle_decoded_size_eq_length {T : Type} [DecidableEq T] (S : List T)
    (hS : ∀ x, ¬ (List.replicate U32MOD x <:+: S)) (hlen : S.length < U64MOD) :
    (RLEColumn.encode ⟨[], []⟩ S).decoded_size = S.length := by
  cases S with
  | nil => rfl
  | cons d rest =>
    have hsum := rleLoop_sum hS rest d 1 [] [] (by simp)
    have hlen' : rest.length + 1 < U64MOD := by
      simpa using hlen
    show List.foldl (fun total len => (total + len) % U64MOD) 0 ((rleLoop rest d 1 [] []).2) =
      (d :: rest).length
    rw [foldlMod_eq_sum _ 0 (by rw [hsum]; simp; omega), hsum]
    simp
    omega

/-- C7 witness: length conservation applied to the concrete input
`[2, 2, 9]`. -/
theorem rle_decoded_size_applied :
    (([2, 2, 9] : List Nat).length < U64MOD) ∧
      (RLEColumn.encode (⟨[], []⟩ : RLEColumn Nat) [2, 2, 9]).decoded_size =
        ([2, 2, 9] : List Nat).length := by
  have h : ∀ x : Nat, ¬ (List.replicate U32MOD x <:+: [2, 2, 9]) := by
    intro x hx
    have h2 := hx.length_le
    rw [List.length_replicate] at h2
    norm_num [U32MOD] at h2
  exact ⟨by norm_num [U64MOD], rle_decoded_size_eq_length [2, 2, 9] h (by norm_num [U64MOD])⟩

/-- C7 counterexample: for S = 2^32 copies of 0 the stored run length is
the wrapped counter 0, so `decoded_size()` is 0 while `length(S)` is
2^32. -/
theorem rle_decoded_size_fails_at_wrap :
    (RLEColumn.encode (⟨[], []⟩ : RLEColumn Nat) (List.replicate U32MOD 0)).decoded_size ≠
      (List.replicate U32MOD (0 : Nat)).length := by
  rw [rle_encode_wrap_eq, List.length_replicate]
  norm_num [RLEColumn.decoded_size, U32MOD, U64MOD]

/-- The `std::find` search misses exactly when the value is absent. -/
theorem findPos_eq_none {T : Type} [DecidableEq T] (x : T) :
    ∀ (l : List T), findPos x l = none ↔ x ∉ l
  | [] => by simp [findPos]
  | y :: ys => by
    by_cases hy : y = x
    · subst hy
      simp [findPos]
    · have hxy : ¬ (x = y) := fun h => hy h.symm
      simp [findPos, hy, findPos_eq_none x ys, hxy]

/-- A successful `std::find` returns the position of an element equal to
the searched value. -/
theorem findPos_some {T : Type} [DecidableEq T] (x : T) :
    ∀ (l : List T) (i : Nat), findPos x l = some i → i < l.length ∧ l[i]? = some x
  | [], i, h => by simp [findPos] at h
  | y :: ys, i, h => by
    by_cases hy : y = x
    · subst hy
      simp [findPos] at h
      subst h
      simp
    · rw [findPos, if_neg hy, Option.map_eq_some'] at h
      obtain ⟨j, hj, rfl⟩ := h
      have ih := findPos_some x ys j hj
      have h1 := ih.1
      refine ⟨by simp; omega, ?_⟩
      simpa using ih.2

/-- Unfolding of one step of the dictionary loop when the value is new. -/
theorem dictLoop_cons_none {T : Type} [DecidableEq T] {x : T} {uniq : List T}
    (hf : findPos x uniq = none) (xs : List T) (idxs : List Nat) :
    dictLoop (x :: xs) uniq idxs =
      dictLoop xs (uniq ++ [x]) (idxs ++ [((uniq ++ [x]).length - 1) % U32MOD]) := by
  have e : dictLoop (x :: xs) uniq idxs =
      match findPos x uniq with
      | none => dictLoop xs (uniq ++ [x]) (idxs ++ [((uniq ++ [x]).length - 1) % U32MOD])
      | some i => dictLoop xs uniq (idxs ++ [i % U32MOD]) := rfl
  rw [e, hf]

/-- Unfolding of one step of the dictionary loop when the value exists. -/
theorem dictLoop_cons_some {T : Type} [DecidableEq T] {x : T} {uniq : List T}
    {i : Nat} (hf : findPos x uniq = some i) (xs : List T) (idxs : List Nat) :
    dictLoop (x :: xs) uniq idxs = dictLoop xs uniq (idxs ++ [i % U32MOD]) := by
  have e : dictLoop (x :: xs) uniq idxs =
      match findPos x uniq with
      | none => dictLoop xs (uniq ++ [x]) (idxs ++ [((uniq ++ [x]).length - 1) % U32MOD])
      | some j => dictLoop xs uniq (idxs ++ [j % U32MOD]) := rfl
  rw [e, hf]

/-- The dictionary loop processes a concatenation left to right. -/
theorem dictLoop_append {T : Type} [DecidableEq T] :
    ∀ (l1 l2 uniq : List T) (idxs : List Nat),
      dictLoop (l1 ++ l2) uniq idxs =
        dictLoop l2 (dictLoop l1 uniq idxs).1 (dictLoop l1 uniq idxs).2
  | [], l2, uniq, idxs => by simp [dictLoop]
  | x :: xs, l2, uniq, idxs => by
    cases hf : findPos x uniq with
    | none =>
      rw [List.cons_append, dictLoop_cons_none hf, dictLoop_cons_none hf,
        dictLoop_append xs l2]
    | some i =>
      rw [List.cons_append, dictLoop_cons_some hf, dictLoop_cons_some hf,
        dictLoop_append xs l2]

/-- `unique_values` only ever grows by pushes at the back. -/
theorem dictLoop_prefix_fst {T : Type} [DecidableEq T] :
    ∀ (data uniq : List T) (idxs : List Nat), uniq <+: (dictLoop data uniq idxs).1
  | [], uniq, idxs => List.prefix_rfl
  | x :: xs, uniq, idxs => by
    cases hf : findPos x uniq with
    | none =>
      rw [dictLoop_cons_none hf]
      exact (List.prefix_append uniq [x]).trans (dictLoop_prefix_fst xs (uniq ++ [x]) _)
    | some i =>
      rw [dictLoop_cons_some hf]
      exact dictLoop_prefix_fst xs uniq _

/-- Positions below the length of a prefix read the same cells in the
longer list. -/
theorem prefix_getElem_eq {T : Type} {l1 l2 : List T} (h : l1 <+: l2) {i : Nat}
    (hi : i < l1.length) : l2[i]? = l1[i]? := by
  obtain ⟨t, rfl⟩ := h
  exact List.getElem?_append_left hi

/-- The dictionary built by the loop is the fold the spec describes:
distinct values in order of first appearance, seeded with `uniq`. -/
theorem dictLoop_firstOcc {T : Type} [DecidableEq T] :
    ∀ (data uniq : List T) (idxs : List Nat),
      (dictLoop data uniq idxs).1 =
        data.foldl (fun acc x => if x ∈ acc then acc else acc ++ [x]) uniq
  | [], uniq, idxs => by simp [dictLoop]
  | x :: xs, uniq, idxs => by
    cases hf : findPos x uniq with
    | none =>
      have hmem : x ∉ uniq := (findPos_eq_none x uniq).mp hf
      rw [dictLoop_cons_none hf, dictLoop_firstOcc xs, List.foldl_cons, if_neg hmem]
    | some i =>
      have hmem : x ∈ uniq := by
        have h2 := (findPos_some x uniq i hf).2
        exact List.getElem?_mem h2
      rw [dictLoop_cons_some hf, dictLoop_firstOcc xs, List.foldl_cons, if_pos hmem]

/-- The first-appearance fold preserves freedom from duplicates. -/
theorem foldl_firstOcc_nodup {T : Type} [DecidableEq T] :
    ∀ (data acc : List T), acc.Nodup →
      (data.foldl (fun acc x => if x ∈ acc then acc else acc ++ [x]) acc).Nodup
  | [], acc, h => by simpa using h
  | x :: xs, acc, h => by
    rw [List.foldl_cons]
    by_cases hm : x ∈ acc
    · rw [if_pos hm]
      exact foldl_firstOcc_nodup xs acc h
    · rw [if_neg hm]
      refine foldl_firstOcc_nodup xs (acc ++ [x]) ?_
      simp [List.nodup_append, h, hm]

/-- Looking the stored indices up in any extension `U` of the final
dictionary recovers the encoded data, provided the final dictionary has at
most 2^32 entries (so the `uint32_t` narrowing of positions is lossless). -/
theorem dictLoop_lookup {T : Type} [DecidableEq T] :
    ∀ (data uniq : List T) (idxs : List Nat),
      (dictLoop data uniq idxs).1.length ≤ U32MOD →
      ∀ (U : List T), (dictLoop data uniq idxs).1 <+: U →
        (dictLoop data uniq idxs).2.map (fun i => U[i]?) =
          idxs.map (fun i => U[i]?) ++ data.map some
  | [], uniq, idxs, _, U, _ => by simp [dictLoop]
  | x :: xs, uniq, idxs, hM, U, hU => by
    cases hf : findPos x uniq with
    | none =>
      rw [dictLoop_cons_none hf] at hM hU ⊢
      have hlen :=
        (dictLoop_prefix_fst xs (uniq ++ [x])
          (idxs ++ [((uniq ++ [x]).length - 1) % U32MOD])).length_le
      have e2 : (uniq ++ [x]).length = uniq.length + 1 := by simp
      have hlt : uniq.length < U32MOD := by omega
      have hk : ((uniq ++ [x]).length - 1) % U32MOD = uniq.length := by
        rw [e2, Nat.add_sub_cancel, Nat.mod_eq_of_lt hlt]
      rw [hk] at hM hU ⊢
      rw [dictLoop_lookup xs (uniq ++ [x]) (idxs ++ [uniq.length]) hM U hU]
      have h2 : (uniq ++ [x]) <+: U :=
        (dictLoop_prefix_fst xs (uniq ++ [x]) (idxs ++ [uniq.length])).trans hU
      have hUx : U[uniq.length]? = some x := by
        rw [prefix_getElem_eq h2 (by simp), List.getElem?_concat_length]
      simp [hUx]
    | some i =>
      rw [dictLoop_cons_some hf] at hM hU ⊢
      have hfs := findPos_some x uniq i hf
      have hfs1 := hfs.1
      have hlen := (dictLoop_prefix_fst xs uniq (idxs ++ [i % U32MOD])).length_le
      have hlt : i < U32MOD := by omega
      rw [Nat.mod_eq_of_lt hlt] at hM hU ⊢
      rw [dictLoop_lookup xs uniq (idxs ++ [i]) hM U hU]
      have h2 : uniq <+: U := (dictLoop_prefix_fst xs uniq (idxs ++ [i])).trans hU
      have hUx : U[i]? = some x := by
        rw [prefix_getElem_eq h2 hfs.1, hfs.2]
      simp [hUx]

/-- Unfolding of one step of the decode loop. -/
theorem dictDecodeGo_cons_eq {T : Type} (dict : List T) (i : Nat)
    (rest : List Nat) (acc : List T) :
    dictDecodeGo dict (i :: rest) acc =
      match dict[i]? with
      | none => Except.error "Dictionary index out of range"
      | some v => dictDecodeGo dict rest (acc ++ [v]) := rfl

/-- When every index looks up successfully, decode succeeds and returns
the looked-up values after the accumulator. -/
theorem dictDecodeGo_ok {T : Type} (dict : List T) :
    ∀ (idxs : List Nat) (data acc : List T),
      idxs.map (fun i => dict[i]?) = data.map some →
      dictDecodeGo dict idxs acc = Except.ok (acc ++ data)
  | [], data, acc, h => by
    cases data with
    | nil => simp [dictDecodeGo]
    | cons d ds => simp at h
  | i :: is, data, acc, h => by
    cases data with
    | nil => simp at h
    | cons d ds =>
      rw [List.map_cons, List.map_cons] at h
      injection h with h1 h2
      rw [dictDecodeGo_cons_eq, h1]
      show dictDecodeGo dict is (acc ++ [d]) = Except.ok (acc ++ d :: ds)
      rw [dictDecodeGo_ok dict is ds (acc ++ [d]) h2]
      simp

/-- When some index is at or beyond the dictionary length, the decode loop
raises the fixed out-of-range error. -/
theorem dictDecodeGo_error {T : Type} (dict : List T) :
    ∀ (idxs : List Nat) (acc : List T),
      (∃ i ∈ idxs, dict.length ≤ i) →
      dictDecodeGo dict idxs acc = Except.error "Dictionary index out of range"
  | [], acc, h => by simp at h
  | i :: is, acc, h => by
    cases hx : dict[i]? with
    | none => rw [dictDecodeGo_cons_eq, hx]
    | some v =>
      rw [dictDecodeGo_cons_eq, hx]
      show dictDecodeGo dict is (acc ++ [v]) = Except.error "Dictionary index out of range"
      obtain ⟨j, hj, hlen⟩ := h
      rcases List.mem_cons.mp hj with rfl | hj2
      · rw [List.getElem?_eq_none hlen] at hx
        exact absurd hx (by simp)
      · exact dictDecodeGo_error dict is (acc ++ [v]) ⟨j, hj2, hlen⟩

/-- The loop pushes exactly one index per data element. -/
theorem dictLoop_snd_length {T : Type} [DecidableEq T] :
    ∀ (data uniq : List T) (idxs : List Nat),
      (dictLoop data uniq idxs).2.length = idxs.length + data.length
  | [], uniq, idxs => by simp [dictLoop]
  | x :: xs, uniq, idxs => by
    cases hf : findPos x uniq with
    | none =>
      rw [dictLoop_cons_none hf, dictLoop_snd_length xs]
      simp
      omega
    | some i =>
      rw [dictLoop_cons_some hf, dictLoop_snd_length xs]
      simp
      omega

/-- Every index the loop stores is below the length of the final
dictionary, with no hypothesis at all: a lossless position is below it
because the dictionary only grows, and a narrowed (wrapped) position is
even smaller. -/
theorem dictLoop_idx_lt {T : Type} [DecidableEq T] :
    ∀ (data uniq : List T) (idxs : List Nat),
      (∀ i ∈ idxs, i < (dictLoop data uniq idxs).1.length) →
      ∀ i ∈ (dictLoop data uniq idxs).2, i < (dictLoop data uniq idxs).1.length
  | [], uniq, idxs, h => by
    simp only [dictLoop]
    simpa [dictLoop] using h
  | x :: xs, uniq, idxs, h => by
    cases hf : findPos x uniq with
    | none =>
      rw [dictLoop_cons_none hf] at h ⊢
      refine dictLoop_idx_lt xs (uniq ++ [x]) _ ?_
      intro i hi
      rcases List.mem_append.mp hi with h1 | h1
      · exact h i h1
      · simp only [List.mem_singleton] at h1
        subst h1
        have hpre :=
          (dictLoop_prefix_fst xs (uniq ++ [x])
            (idxs ++ [((uniq ++ [x]).length - 1) % U32MOD])).length_le
        have e2 : (uniq ++ [x]).length = uniq.length + 1 := by simp
        exact Nat.lt_of_le_of_lt (Nat.mod_le _ _) (by omega)
    | some i =>
      rw [dictLoop_cons_some hf] at h ⊢
      refine dictLoop_idx_lt xs uniq _ ?_
      intro k hk
      rcases List.mem_append.mp hk with h1 | h1
      · exact h k h1
      · simp only [List.mem_singleton] at h1
        subst h1
        have hfs1 := (findPos_some x uniq i hf).1
        have hpre :=
          (dictLoop_prefix_fst xs uniq (idxs ++ [i % U32MOD])).length_le
        exact Nat.lt_of_le_of_lt (Nat.mod_le _ _) (by omega)

/-- A non-empty input takes the scanning branch of
`DictionaryColumn::encode`. -/
theorem dict_encode_eq_of_ne_nil {T : Type} [DecidableEq T]
    (col : DictionaryColumn T) (data : List T) (h : data ≠ []) :
    DictionaryColumn.encode col data =
      ⟨(dictLoop data [] []).1, (dictLoop data [] []).2⟩ := by
  cases data with
  | nil => exact absurd rfl h
  | cons x xs => rfl

/-- Encoding `[0, 1, ..., n-1]` makes every value new: the dictionary is
the input itself and each stored index is the (narrowed) position. -/
theorem dictLoop_range_eq :
    ∀ (n : Nat), dictLoop (List.range n) [] [] =
      (List.range n, (List.range n).map (fun i => i % U32MOD))
  | 0 => by simp [dictLoop]
  | n + 1 => by
    rw [List.range_succ, dictLoop_append, dictLoop_range_eq n]
    have hf : findPos n (List.range n) = none :=
      (findPos_eq_none n (List.range n)).mpr (by simp [List.mem_range])
    rw [dictLoop_cons_none hf]
    simp [dictLoop, List.range_succ]

/-- C2 (amended): dictionary round-trip holds for every sequence with at
most 2^32 distinct values (so the `uint32_t` narrowing of dictionary
positions is lossless): decode of `DictionaryColumn::encode(S)` yields
exactly S without error, including S = empty. -/
theorem dict_roundtrip {T : Type} [DecidableEq T] (S : List T)
    (hS : (specFirstOccurrences S).length ≤ U32MOD) :
    (DictionaryColumn.encode ⟨[], []⟩ S).decode = Except.ok S := by
  cases S with
  | nil => rfl
  | cons d rest =>
    show dictDecodeGo (dictLoop (d :: rest) [] []).1 (dictLoop (d :: rest) [] []).2 [] =
      Except.ok (d :: rest)
    have hM : (dictLoop (d :: rest) [] []).1.length ≤ U32MOD := by
      rw [dictLoop_firstOcc]
      exact hS
    have hmap :=
      dictLoop_lookup (d :: rest) [] [] hM (dictLoop (d :: rest) [] []).1 List.prefix_rfl
    rw [dictDecodeGo_ok _ _ (d :: rest) [] (by simpa using hmap)]
    simp

/-- C2 witness: the round-trip theorem applied to the concrete input
`[5, 7, 5]`, which has 2 distinct values. -/
theorem dict_roundtrip_applied :
    ((specFirstOccurrences ([5, 7, 5] : List Nat)).length ≤ U32MOD) ∧
      (DictionaryColumn.encode (⟨[], []⟩ : DictionaryColumn Nat) [5, 7, 5]).decode =
        Except.ok [5, 7, 5] :=
  ⟨by decide, dict_roundtrip [5, 7, 5] (by decide)⟩

/-- Decode of a literal column state. -/
theorem dict_decode_mk {T : Type} (d : List T) (i : List Nat) :
    (⟨d, i⟩ : DictionaryColumn T).decode = dictDecodeGo d i [] := rfl

/-- C2 counterexample: for S = [0, 1, ..., 2^32], which has 2^32 + 1
distinct values, the dictionary position of the last value narrows from
2^32 to 0 in the `uint32_t` indices vector, decode succeeds but returns 0
in place of 2^32: the claimed round-trip fails on this input. -/
theorem dict_roundtrip_fails_at_wrap :
    (DictionaryColumn.encode (⟨[], []⟩ : DictionaryColumn Nat)
        (List.range (U32MOD + 1))).decode ≠ Except.ok (List.range (U32MOD + 1)) := by
  have hne : List.range (U32MOD + 1) ≠ [] := by
    intro h
    have h2 := congrArg List.length h
    simp at h2
  have he := dict_encode_eq_of_ne_nil (⟨[], []⟩ : DictionaryColumn Nat)
    (List.range (U32MOD + 1)) hne
  have he2 : DictionaryColumn.encode (⟨[], []⟩ : DictionaryColumn Nat)
      (List.range (U32MOD + 1)) =
        ⟨List.range (U32MOD + 1), (List.range (U32MOD + 1)).map (fun i => i % U32MOD)⟩ := by
    rw [he, dictLoop_range_eq]
  rw [he2, dict_decode_mk]
  have hmap : ((List.range (U32MOD + 1)).map (fun i => i % U32MOD)).map
      (fun i => (List.range (U32MOD + 1))[i]?) =
        ((List.range (U32MOD + 1)).map (fun i => i % U32MOD)).map some := by
    refine List.map_congr_left ?_
    intro i hi
    simp only [List.mem_map, List.mem_range] at hi
    obtain ⟨j, hj, rfl⟩ := hi
    refine List.getElem?_range ?_
    have hmod : j % U32MOD < U32MOD := Nat.mod_lt _ (by norm_num [U32MOD])
    omega
  rw [dictDecodeGo_ok _ _ ((List.range (U32MOD + 1)).map (fun i => i % U32MOD)) [] hmap]
  intro h
  rw [List.nil_append] at h
  injection h with h6
  have h7 := congrArg (fun l => l[U32MOD]?) h6
  simp only [List.getElem?_map, List.getElem?_range (Nat.lt_succ_self U32MOD)] at h7
  rw [Option.map_some'] at h7
  rw [Nat.mod_self] at h7
  injection h7 with h8
  exact absurd h8 (by norm_num [U32MOD])

/-- C3 (amended): whenever some entry of `indices` is at or beyond the
dictionary length, decode fails with the out-of-range error — whose message
is the fixed string "Dictionary index out of range", raised at the
offending lookup but not naming the offending index. -/
theorem dict_decode_oob_error {T : Type} (col : DictionaryColumn T)
    (h : ∃ i ∈ col.indices, col.dictionary.length ≤ i) :
    col.decode = Except.error "Dictionary index out of range" :=
  dictDecodeGo_error col.dictionary col.indices [] h

/-- C3 witness: the spec's own example — indices `[0, 5]` against a
dictionary of length 2 — raises the out-of-range error. -/
theorem dict_decode_oob_error_applied :
    (∃ i ∈ (⟨[10, 20], [0, 5]⟩ : DictionaryColumn Nat).indices,
        (⟨[10, 20], [0, 5]⟩ : DictionaryColumn Nat).dictionary.length ≤ i) ∧
      (⟨[10, 20], [0, 5]⟩ : DictionaryColumn Nat).decode =
        Except.error "Dictionary index out of range" :=
  ⟨by decide, dict_decode_oob_error ⟨[10, 20], [0, 5]⟩ ⟨5, by decide, by decide⟩⟩

/-- C3 counterexample: the error cannot be identifying (referencing) the
offending index, because decoding indices `[0, 5]` and indices `[0, 7]`
against the same length-2 dictionary produces the very same error value,
the constant message carrying no index at all — against the claim that the
failure references the offending index 5. -/
theorem dict_decode_error_is_anonymous :
    (⟨[10, 20], [0, 5]⟩ : DictionaryColumn Nat).decode =
        (⟨[10, 20], [0, 7]⟩ : DictionaryColumn Nat).decode ∧
      (⟨[10, 20], [0, 5]⟩ : DictionaryColumn Nat).decode =
        Except.error "Dictionary index out of range" :=
  ⟨rfl, rfl⟩

/-- C4: after `DictionaryColumn::encode(S)` the dictionary is exactly the
distinct values of S in order of first appearance, and in particular has no
duplicate entries. -/
theorem dict_dictionary_first_occurrences {T : Type} [DecidableEq T] (S : List T) :
    (DictionaryColumn.encode ⟨[], []⟩ S).dictionary = specFirstOccurrences S ∧
      (DictionaryColumn.encode ⟨[], []⟩ S).dictionary.Nodup := by
  cases S with
  | nil => exact ⟨rfl, List.nodup_nil⟩
  | cons d rest =>
    constructor
    · show (dictLoop (d :: rest) [] []).1 = specFirstOccurrences (d :: rest)
      exact dictLoop_firstOcc (d :: rest) [] []
    · show ((dictLoop (d :: rest) [] []).1).Nodup
      rw [dictLoop_firstOcc]
      exact foldl_firstOcc_nodup (d :: rest) [] List.nodup_nil

/-- C5: after `DictionaryColumn::encode(S)` every entry of `indices` is a
valid position into the dictionary, and `indices` has the same length as
S.  This needs no size hypothesis: an unnarrowed position is below the
final dictionary length because the dictionary only grows, and a narrowed
(wrapped) position is smaller still. -/
theorem dict_indices_valid {T : Type} [DecidableEq T] (S : List T) :
    (∀ i ∈ (DictionaryColumn.encode ⟨[], []⟩ S).indices,
        i < (DictionaryColumn.encode ⟨[], []⟩ S).dictionary.length) ∧
      (DictionaryColumn.encode ⟨[], []⟩ S).indices.length = S.length := by
  cases S with
  | nil => exact ⟨by simp [DictionaryColumn.encode], rfl⟩
  | cons d rest =>
    constructor
    · show ∀ i ∈ (dictLoop (d :: rest) [] []).2, i < (dictLoop (d :: rest) [] []).1.length
      exact dictLoop_idx_lt (d :: rest) [] [] (by simp)
    · show (dictLoop (d :: rest) [] []).2.length = (d :: rest).length
      rw [dictLoop_snd_length]
      simp

/-- C8: encoding an empty input on a fresh column leaves both codecs with
wholly empty encoded state: for RLE both `values` and `lengths` are empty,
for the dictionary codec both `dictionary` and `indices` are empty. -/
theorem encode_empty_input {T : Type} [DecidableEq T] :
    (RLEColumn.encode (⟨[], []⟩ : RLEColumn T) []).values = [] ∧
      (RLEColumn.encode (⟨[], []⟩ : RLEColumn T) []).lengths = [] ∧
      (DictionaryColumn.encode (⟨[], []⟩ : DictionaryColumn T) []).dictionary = [] ∧
      (DictionaryColumn.encode (⟨[], []⟩ : DictionaryColumn T) []).indices = [] :=
  ⟨rfl, rfl, rfl, rfl⟩

/-- C10: `encode` with an empty input returns before the `clear()` calls,
leaving any previously stored encoded state exactly as it was, for both
column types. -/
theorem encode_empty_preserves_state {T : Type} [DecidableEq T]
    (r : RLEColumn T) (d : DictionaryColumn T) :
    r.encode [] = r ∧ d.encode [] = d :=
  ⟨rfl, rfl⟩

end orso
